import Mathlib

/-!
Verification of the RAG-WEB retrieval pipeline.

This file gives a shallow embedding of the core of the repository:
the chunker (`DocumentProcessor._clean_text`, `DocumentProcessor._create_chunks`
in `backend/app/core/document_processor.py`), the vector store
(`VectorStore.create_index`, `VectorStore.search` in
`backend/app/core/vector_store.py`), the answer assembly
(`RAGPipeline.get_response_with_sources` in `backend/app/core/rag_pipeline.py`)
and the ingest endpoint (`process_documents` in `backend/app/api/routes.py`),
together with theorems settling the behavioural claims about them.

Texts are modelled as `List Char` (Python `str`), similarity scores as `ℚ`.
The numeric embedding pipeline (TF-IDF / hash embeddings and FAISS inner
products) is cut at the score boundary: a query is represented by the vector
of inner-product scores between its normalized embedding and every stored
row, and `faissTopK` models `faiss.IndexFlatIP.search` on those scores
(top-k by score, descending, ties by row order, padded with `-1` sentinel
rows when fewer rows than `k` exist).  The claims settled here depend only
on the ranking/filtering mechanics, not on the score values.
-/

namespace RagWeb

/-! ### Chunker: `DocumentProcessor._clean_text` and `_create_chunks` -/

/-- Whitespace test used to model Python whitespace handling (`\s`, `str.strip`). -/
def isWs (c : Char) : Bool := c.isWhitespace

/-- One pass of Python `re.sub` with pattern `\s+` replaced by a single space:
every maximal whitespace run becomes one `' '`; `prevWs` records whether the
previous character was whitespace. -/
def collapseWsAux (prevWs : Bool) : List Char → List Char
  | [] => []
  | c :: cs =>
    if isWs c then
      if prevWs then collapseWsAux true cs
      else ' ' :: collapseWsAux true cs
    else c :: collapseWsAux false cs

/-- Model of `re.sub` collapsing whitespace runs in `_clean_text`. -/
def collapseWs (l : List Char) : List Char := collapseWsAux false l

/-- Character allow-list of `_clean_text` (word characters, whitespace and the
punctuation set), with Python word characters modelled as ASCII alphanumerics
plus underscore. -/
def allowedChar (c : Char) : Bool :=
  c.isAlphanum || c = '_' || isWs c || c = '.' || c = ',' || c = '!' || c = '?' ||
    c = ';' || c = ':' || c = '(' || c = ')' || c = '-' || c = '"'

/-- Model of the second `re.sub` of `_clean_text`: characters outside the
allow-list become spaces. -/
def allowMap (l : List Char) : List Char := l.map (fun c => if allowedChar c then c else ' ')

/-- One pass of the third `re.sub` of `_clean_text`: runs of `' '` collapse to one. -/
def collapseSpAux (prevSp : Bool) : List Char → List Char
  | [] => []
  | c :: cs =>
    if c = ' ' then
      if prevSp then collapseSpAux true cs
      else ' ' :: collapseSpAux true cs
    else c :: collapseSpAux false cs

/-- Model of the third `re.sub` of `_clean_text`. -/
def collapseSp (l : List Char) : List Char := collapseSpAux false l

/-- Python `str.strip`: drop whitespace from both ends. -/
def pyStrip (l : List Char) : List Char :=
  ((l.dropWhile isWs).reverse.dropWhile isWs).reverse

/-- Model of `DocumentProcessor._clean_text`. -/
def cleanText (l : List Char) : List Char := pyStrip (collapseSp (allowMap (collapseWs l)))

/-- Python `text.rfind(c, s, e)` for a single character: the largest index `i`
with `s ≤ i < e` and `text[i] = c`, if any. -/
def rfind (text : List Char) (c : Char) (s e : Nat) : Option Nat :=
  ((List.range (min e text.length)).filter
    (fun i => decide (s ≤ i) && decide (text.get? i = some c))).getLast?

/-- The word-boundary fallback of the chunk-end computation in `_create_chunks`:
the latest space strictly past the window midpoint, else the raw cut `e`. -/
def wordEnd (text : List Char) (cs start e : Nat) : Nat :=
  match rfind text ' ' start e with
  | some we => if start + cs / 2 < we then we else e
  | none => e

/-- The `end` computed by one iteration of `_create_chunks`: the raw cut
`start + cs`, pulled back to the latest sentence terminator (then the latest
space) strictly past the window midpoint when the raw cut lies inside the text. -/
def chunkEnd (text : List Char) (cs start : Nat) : Nat :=
  let e := start + cs
  if e < text.length then
    match rfind text '.' start e with
    | some se => if start + cs / 2 < se then se + 1 else wordEnd text cs start e
    | none => wordEnd text cs start e
  else e

/-- The advance `start = end - overlap; if start <= 0: start = end` of
`_create_chunks` (the guard compares against zero, not the previous start). -/
def nextStart (e ov : Nat) : Nat := if e ≤ ov then e else e - ov

/-- The metadata header prepended to every chunk by `_create_chunks`. -/
def chunkHeader (src : List Char) : List Char := "[Source: ".data ++ src ++ "]\n".data

/-- Fuel-indexed model of the `while start < len(text)` loop of
`DocumentProcessor._create_chunks`; `none` means the fuel ran out before the
loop finished, so the loop runs for more iterations than the given fuel. -/
def createChunksAux (cs ov : Nat) (src text : List Char) : Nat → Nat → Option (List (List Char))
  | 0, start => if start < text.length then none else some []
  | fuel + 1, start =>
    if start < text.length then
      let e := chunkEnd text cs start
      let chunk := pyStrip ((text.take e).drop start)
      (createChunksAux cs ov src text fuel (nextStart e ov)).map
        (fun rest => if chunk = [] then rest else (chunkHeader src ++ chunk) :: rest)
    else some []

/-- `DocumentProcessor._create_chunks` run with fuel `len(text) + 1`, the bound
sufficient whenever every iteration advances `start`. -/
def createChunks (cs ov : Nat) (src text : List Char) : Option (List (List Char)) :=
  createChunksAux cs ov src text (text.length + 1) 0

/-- Termination of the `_create_chunks` loop on a given input: some finite
fuel completes the loop. -/
def ChunkTerminates (cs ov : Nat) (src text : List Char) : Prop :=
  ∃ fuel, (createChunksAux cs ov src text fuel 0).isSome

/-! ### Vector store: `VectorStore.create_index` and `VectorStore.search` -/

/-- One entry of the structured result list built by `VectorStore.search`. -/
structure SearchResult where
  chunk_id : Nat
  source_name : List Char
  similarity_score : ℚ
  preview : List Char
  deriving DecidableEq

instance : Inhabited SearchResult := ⟨⟨0, [], 0, []⟩⟩

/-- First synthetic filler document of the stale padded `create_index` variant. -/
def paddingDoc1 : List Char := "This is a padding document for TF-IDF processing.".data

/-- Second synthetic filler document of the stale padded `create_index` variant. -/
def paddingDoc2 : List Char := "Another padding document to ensure proper TF-IDF functionality.".data

/-- The substring `VectorStore.search` uses to recognise padding documents. -/
def padMarker : List Char := "padding document for TF-IDF".data

/-- State of a `VectorStore`: whether `self.index` is set, and `self.documents`. -/
structure VectorStore where
  indexBuilt : Bool
  documents : List (List Char)

/-- Model of `VectorStore.create_index` from `backend/app/core/vector_store.py`:
rejects an empty corpus, otherwise stores the documents exactly as given (this
live version adds no padding; the TF-IDF vectorizer is then fitted on this same
stored list) and builds the index over them. -/
def VectorStore.create_index (docs : List (List Char)) : Except String VectorStore :=
  if docs.isEmpty then .error "No documents provided"
  else .ok { indexBuilt := true, documents := docs }

/-- The distance FAISS reports for sentinel slots (model of the float
lowest-value padding, about `-3.4e38`). -/
def sentinelScore : ℚ := -340000000000000000000000000000000000000

/-- Descending-score order on FAISS candidate rows. -/
def scoreOrd (a b : ℚ × Int) : Prop := b.1 ≤ a.1

instance : DecidableRel scoreOrd := fun a b => inferInstanceAs (Decidable (b.1 ≤ a.1))

/-- Model of `faiss.IndexFlatIP.search` for one query: given the inner-product
score of the query against every stored row, return exactly `k` pairs
`(distance, row)`, best score first, ties by row order (stable sort), padded
with `(sentinelScore, -1)` sentinel slots when fewer than `k` rows are stored. -/
def faissTopK (scores : List ℚ) (k : Nat) : List (ℚ × Int) :=
  let top := (List.insertionSort scoreOrd (scores.enum.map (fun p => (p.2, (p.1 : Int))))).take k
  top ++ List.replicate (k - top.length) (sentinelScore, -1)

/-- Python list indexing `docs[idx]`: negative indices count from the end.
An index outside the Python range yields `[]` (the real code would raise
`IndexError`, which `search` catches; unreachable from `faissTopK` outputs). -/
def pyIndex (docs : List (List Char)) (idx : Int) : List Char :=
  if 0 ≤ idx ∧ idx < docs.length then docs.getD idx.toNat []
  else if -(docs.length : Int) ≤ idx ∧ idx < 0 then docs.getD (docs.length - (-idx).toNat) []
  else []

/-- Python `doc_text.find` of the two-character pattern right-bracket newline:
the first index where it occurs. -/
def findBrk (doc : List Char) : Option Nat :=
  (List.range doc.length).find?
    (fun i => decide (doc.get? i = some ']') && decide (doc.get? (i + 1) = some '\n'))

/-- The default source name of `VectorStore.search`. -/
def unknownName : List Char := "Unknown".data

/-- Source-name and preview extraction of `VectorStore.search`: when the stored
text starts with the chunk header, the name is the slice from offset 8 to the
closing bracket (note this keeps the leading space of the header) and the
preview is the text after the header; otherwise the whole text with name
Unknown. -/
def parseDoc (doc : List Char) : List Char × List Char :=
  if "[Source:".data.isPrefixOf doc then
    match findBrk doc with
    | some eb => ((doc.take eb).drop 8, doc.drop (eb + 2))
    | none => (unknownName, doc)
  else (unknownName, doc)

/-- The preview truncation of `VectorStore.search`: texts longer than 300
characters become their first 300 characters followed by an ellipsis. -/
def truncPrev (p : List Char) : List Char :=
  if 300 < p.length then p.take 300 ++ "...".data else p

/-- One structured result entry as built by `VectorStore.search` for candidate
position `i` (Python `chunk_id = i + 1`). -/
def mkResult (i : Nat) (dist : ℚ) (doc : List Char) : SearchResult :=
  ⟨i + 1, (parseDoc doc).1, dist, truncPrev (parseDoc doc).2⟩

/-- The result-collection loop of `VectorStore.search` over the FAISS
candidates: skip rows with `idx >= len(documents)`, skip rows whose text
contains the padding marker, append a structured result otherwise, and stop
once `k` results are collected (`count` is the number collected so far).
Each kept result is paired with the stored text it was built from. -/
def searchLoop (docs : List (List Char)) (k : Nat) :
    List (ℚ × Int) → Nat → Nat → List (SearchResult × List Char)
  | [], _, _ => []
  | (dist, idx) :: rest, i, count =>
    if (docs.length : Int) ≤ idx then searchLoop docs k rest (i + 1) count
    else
      let doc := pyIndex docs idx
      if padMarker <:+: doc then searchLoop docs k rest (i + 1) count
      else
        if k ≤ count + 1 then [(mkResult i dist doc, doc)]
        else (mkResult i dist doc, doc) :: searchLoop docs k rest (i + 1) (count + 1)

/-- Model of `VectorStore.search`, keeping each result paired with the stored
document it came from: empty when no index was built, otherwise the collection
loop over the `k` FAISS candidates. -/
def searchAux (st : VectorStore) (scores : List ℚ) (k : Nat) : List (SearchResult × List Char) :=
  if st.indexBuilt then searchLoop st.documents k (faissTopK scores k) 0 0 else []

/-- Model of `VectorStore.search` (the structured result list it returns). -/
def VectorStore.search (st : VectorStore) (scores : List ℚ) (k : Nat) : List SearchResult :=
  (searchAux st scores k).map Prod.fst

/-! ### Answer assembly: `RAGPipeline.get_response_with_sources` -/

/-- One update of the `source_map` dict of `get_response_with_sources`,
modelled on an insertion-ordered association list: a new source is appended,
an existing source keeps its position and is replaced only by a strictly
higher score. -/
def upsert (m : List SearchResult) (r : SearchResult) : List SearchResult :=
  match m with
  | [] => [r]
  | x :: xs =>
    if x.source_name = r.source_name then
      (if x.similarity_score < r.similarity_score then r else x) :: xs
    else x :: upsert xs r

/-- The `source_map` dict of `get_response_with_sources` after inserting every
result, listed in key-insertion order (Python dict semantics). -/
def sourceMap (results : List SearchResult) : List SearchResult := results.foldl upsert []

/-- The canned no-information response of `get_response_with_sources`. -/
def noInfoText : List Char :=
  "I couldn".data ++ [Char.ofNat 39] ++
    "t find any relevant information in the uploaded documents.".data

/-- The attributed-excerpt answer text of `get_response_with_sources`. -/
def answerText (top : SearchResult) : List Char :=
  "Based on ".data ++ [Char.ofNat 39] ++ top.source_name ++ [Char.ofNat 39] ++
    ":\n\n".data ++ top.preview

/-- The response payload of `RAGPipeline.get_response_with_sources`. -/
structure RAGAnswer where
  response : List Char
  sources : List SearchResult
  confidence : ℚ
  num_sources : Nat
  deriving DecidableEq

/-- Model of `RAGPipeline.get_response_with_sources`, as a function of the
result list returned by `VectorStore.search`: canned answer on an empty list,
otherwise source-deduplication, the excerpt answer from the first deduplicated
entry, at most 3 sources, and the clamped confidence.  (The inner `[]` branch
is unreachable: the source map of a nonempty list is nonempty.) -/
def getResponseWithSources (results : List SearchResult) : RAGAnswer :=
  match results with
  | [] => ⟨noInfoText, [], 0, 0⟩
  | _ :: _ =>
    match sourceMap results with
    | [] => ⟨noInfoText, [], 0, 0⟩
    | top :: rest =>
      ⟨answerText top, (top :: rest).take 3,
        min (19 / 20 : ℚ) (max (1 / 2 : ℚ) (top.similarity_score + 3 / 10)),
        (top :: rest).length⟩

/-- The similarity score of the first deduplicated entry (the top source used
for the answer and the confidence). -/
def topScore (results : List SearchResult) : ℚ :=
  ((sourceMap results).headD default).similarity_score

/-- First occurrence of each source name, in original order: the specification
form of the deduplication order. -/
def firstOccAux (seen : List (List Char)) : List SearchResult → List SearchResult
  | [] => []
  | r :: rs =>
    if r.source_name ∈ seen then firstOccAux seen rs
    else r :: firstOccAux (r.source_name :: seen) rs

/-- Descending-score order on search results (search output is sorted this way). -/
def scoreGE (a b : SearchResult) : Prop := b.similarity_score ≤ a.similarity_score

/-! ### Ingest endpoint: `routes.process_documents` -/

/-- The mutable server state of `backend/app/api/routes.py`: the active RAG
pipeline (its vector store, i.e. one corpus generation) and the processed
chunk list. -/
structure ServerState where
  pipeline : Option VectorStore
  processedDocs : List (List Char)

/-- Concatenation of the per-file chunk lists (`all_chunks` in the endpoint). -/
def chunksOf (files : List (Option (List (List Char)))) : List (List Char) :=
  (files.filterMap id).flatten

/-- Model of `routes.process_documents`.  Each requested file is abstracted by
the outcome of looking it up and extracting chunks from it: `none` means the
file was not found (the endpoint aborts with 404), `some chunks` the chunk list
produced by `DocumentProcessor.process_document` (which catches extraction
errors and returns `[]`, so a failed document contributes no chunks but does
not abort).  The endpoint aborts when no chunks at all were produced or when
index creation fails, and only on full success assigns the new pipeline and
chunk list to the globals; the boolean reports success. -/
def processDocuments (st : ServerState) (files : List (Option (List (List Char)))) :
    ServerState × Bool :=
  if files.any (fun f => f.isNone) then (st, false)
  else
    let allChunks := chunksOf files
    if allChunks.isEmpty then (st, false)
    else
      match VectorStore.create_index allChunks with
      | .error _ => (st, false)
      | .ok vs => (⟨some vs, allChunks⟩, true)

/-! ### Chunker lemmas -/

theorem dropWhile_dropWhile (p : Char → Bool) (l : List Char) :
    List.dropWhile p (List.dropWhile p l) = List.dropWhile p l := by
  induction l with
  | nil => rfl
  | cons c cs ih =>
    by_cases h : p c
    · simp [List.dropWhile_cons, h, ih]
    · simp [List.dropWhile_cons, h]

theorem head?_dropWhile_false (p : Char → Bool) (l : List Char) (c : Char)
    (h : (l.dropWhile p).head? = some c) : p c = false := by
  induction l with
  | nil => simp at h
  | cons x xs ih =>
    by_cases hx : p x
    · rw [List.dropWhile_cons, if_pos hx] at h
      exact ih h
    · rw [List.dropWhile_cons, if_neg hx] at h
      simp at h
      rw [← h]
      exact Bool.eq_false_iff.mpr hx

theorem dropWhile_eq_self_of_head (p : Char → Bool) (l : List Char)
    (h : ∀ c, l.head? = some c → p c = false) : l.dropWhile p = l := by
  cases l with
  | nil => rfl
  | cons c cs =>
    have := h c rfl
    simp [List.dropWhile_cons, this]

theorem pyStrip_idem (l : List Char) : pyStrip (pyStrip l) = pyStrip l := by
  set A := l.dropWhile isWs with hA
  set C := A.reverse.dropWhile isWs with hC
  have hBC : pyStrip l = C.reverse := by rw [pyStrip]
  rw [hBC]
  have hdropB : C.reverse.dropWhile isWs = C.reverse := by
    apply dropWhile_eq_self_of_head
    intro c hc
    rw [List.head?_reverse] at hc
    -- the last element of C is the head of A (C is a nonempty suffix of A.reverse)
    rcases (List.dropWhile_suffix (l := A.reverse) isWs) with ⟨t, ht⟩
    have hCne : C ≠ [] := by
      intro h0
      rw [h0] at hc
      simp at hc
    have h1 : A.reverse.getLast? = C.getLast? := by
      rw [← ht, ← hC]
      exact List.getLast?_append_of_ne_nil t hCne
    have h2 : A.head? = some c := by
      rw [← List.getLast?_reverse, h1, hc]
    rw [hA] at h2
    exact head?_dropWhile_false isWs l c h2
  show ((C.reverse.dropWhile isWs).reverse.dropWhile isWs).reverse = C.reverse
  rw [hdropB, List.reverse_reverse, dropWhile_dropWhile]

theorem pyStrip_cleanText (l : List Char) : pyStrip (cleanText l) = cleanText l := by
  rw [cleanText]
  exact pyStrip_idem _

theorem chunkEnd_lb (text : List Char) (cs start : Nat) (hcs : 0 < cs) :
    start + cs / 2 + 1 ≤ chunkEnd text cs start := by
  have hhalf : cs / 2 < cs := Nat.div_lt_self hcs one_lt_two
  unfold chunkEnd
  dsimp only
  split
  · split
    · split
      · omega
      · unfold wordEnd
        split
        · split <;> omega
        · omega
    · unfold wordEnd
      split
      · split <;> omega
      · omega
  · omega

theorem nextStart_lb (text : List Char) (cs start ov : Nat) (hcs : 0 < cs)
    (hov : ov ≤ cs / 2) : start + 1 ≤ nextStart (chunkEnd text cs start) ov := by
  have h := chunkEnd_lb text cs start hcs
  unfold nextStart
  split <;> omega

theorem createChunksAux_stop (cs ov : Nat) (src text : List Char) (start : Nat)
    (h : text.length ≤ start) :
    ∀ fuel, createChunksAux cs ov src text fuel start = some [] := by
  intro fuel
  cases fuel with
  | zero => simp [createChunksAux, Nat.not_lt.mpr h]
  | succ n => simp [createChunksAux, Nat.not_lt.mpr h]

theorem createChunksAux_isSome (cs ov : Nat) (src text : List Char) (hcs : 0 < cs)
    (hov : ov ≤ cs / 2) :
    ∀ fuel start, text.length ≤ start + fuel →
      (createChunksAux cs ov src text fuel start).isSome := by
  intro fuel
  induction fuel with
  | zero =>
    intro start h
    have hn : ¬ start < text.length := by omega
    simp [createChunksAux, hn]
  | succ n ih =>
    intro start h
    by_cases hlt : start < text.length
    · have hnext := nextStart_lb text cs start ov hcs hov
      simp only [createChunksAux, if_pos hlt, Option.isSome_map']
      exact ih _ (by omega)
    · simp [createChunksAux, hlt]

/-! ### Claim C1: termination of the chunking loop -/

/-- The text on which the chunk loop sticks: 25 letters, `chunk_size = 10`,
`overlap = 10`.  After the first iteration `start` is 10 and every further
iteration recomputes `start = 20 - 10 = 10`, which the `start <= 0` guard does
not catch. -/
def cxText : List Char := List.replicate 25 'a'

theorem c1_stuck :
    ∀ fuel, createChunksAux 10 10 "doc.txt".data cxText fuel 10 = none := by
  intro fuel
  induction fuel with
  | zero => decide
  | succ n ih =>
    have h1 : chunkEnd cxText 10 10 = 20 := by decide
    have h2 : nextStart 20 10 = 10 := by decide
    simp only [createChunksAux]
    rw [if_pos (by decide : (10 : Nat) < cxText.length), h1, h2, ih]
    rfl

theorem c1_start0 :
    ∀ fuel, createChunksAux 10 10 "doc.txt".data cxText fuel 0 = none := by
  intro fuel
  cases fuel with
  | zero => decide
  | succ n =>
    have h1 : chunkEnd cxText 10 0 = 10 := by decide
    have h2 : nextStart 10 10 = 10 := by decide
    simp only [createChunksAux]
    rw [if_pos (by decide : (0 : Nat) < cxText.length), h1, h2, c1_stuck n]
    rfl

/-- C1 counterexample: with `chunk_size = 10 > 0`, `overlap = 10 ≥ 0` and a
nonempty 25-character text, the `_create_chunks` loop never terminates — no
amount of fuel completes it — because `start = end - overlap` recomputes the
same `start = 10` forever and the `start <= 0` guard never fires.  This
refutes termination "for all parameter combinations". -/
theorem c1_counterexample :
    0 < (10 : Nat) ∧ 0 < cxText.length ∧
      ¬ ChunkTerminates 10 10 "doc.txt".data cxText := by
  refine ⟨by decide, by decide, ?_⟩
  rintro ⟨fuel, hf⟩
  rw [c1_start0 fuel] at hf
  simp at hf

/-- **C1 (amended).** The chunking loop terminates whenever
`overlap ≤ chunk_size / 2`: every iteration then strictly advances `start`
(the computed `end` always lies strictly past `start + chunk_size / 2`, and
the `start <= 0` guard covers the remaining case), so fuel `len(text) + 1`
always suffices and `_create_chunks` returns a finite chunk list.  For
`overlap > chunk_size / 2` the loop can run forever (see the counterexample). -/
theorem c1_chunk_loop_terminates (text src : List Char) (cs ov : Nat)
    (hcs : 0 < cs) (hov : ov ≤ cs / 2) :
    (createChunks cs ov src text).isSome :=
  createChunksAux_isSome cs ov src text hcs hov (text.length + 1) 0 (by omega)

theorem c1_witness :
    ((0 : Nat) < 4 ∧ 2 ≤ 4 / 2) ∧
      (createChunks 4 2 "w.txt".data "hello world".data).isSome :=
  ⟨by decide,
    c1_chunk_loop_terminates "hello world".data "w.txt".data 4 2 (by decide) (by decide)⟩

/-! ### Claim C6: chunking edge cases -/

/-- C6 counterexample: the cleaned text `abcdefghi` has 9 characters, strictly
fewer than `chunk_size = 10`, yet with `overlap = 5` the loop produces TWO
chunks (`start` advances to `10 - 5 = 5 < 9` after the first full-text chunk,
so a second overlap chunk `fghi` is emitted), refuting "a text shorter than
`chunk_size` produces exactly one chunk". -/
theorem c6_counterexample :
    cleanText "abcdefghi".data ≠ [] ∧
      (cleanText "abcdefghi".data).length < 10 ∧
      (createChunks 10 5 "s.txt".data (cleanText "abcdefghi".data)).map List.length =
        some 2 := by
  refine ⟨by decide, by decide, by decide⟩

/-- **C6 (amended).** Empty cleaned text produces zero chunks (not an error),
exactly as claimed.  A nonempty cleaned text shorter than `chunk_size`
produces exactly one chunk only under the additional condition that the text
is no longer than `chunk_size - overlap` (or `overlap ≥ chunk_size`, making
the `start <= 0` guard fire); otherwise the advance `start = end - overlap`
re-enters the loop and a second trailing chunk is produced. -/
theorem c6_chunking_edge_cases (raw src : List Char) (cs ov : Nat) (hcs : 0 < cs) :
    (cleanText raw = [] → createChunks cs ov src (cleanText raw) = some []) ∧
    (cleanText raw ≠ [] → (cleanText raw).length < cs →
      ((cleanText raw).length ≤ cs - ov ∨ cs ≤ ov) →
      createChunks cs ov src (cleanText raw) = some [chunkHeader src ++ cleanText raw]) := by
  constructor
  · intro h
    rw [createChunks, h]
    simp [createChunksAux]
  · intro hne hlen hfit
    set T := cleanText raw with hT
    have hstrip : pyStrip T = T := by rw [hT]; exact pyStrip_cleanText raw
    have hpos : 0 < T.length := List.length_pos.mpr hne
    have hce : chunkEnd T cs 0 = cs := by
      unfold chunkEnd
      dsimp only
      rw [if_neg (by omega : ¬ 0 + cs < T.length)]
      omega
    have hnext : T.length ≤ nextStart cs ov := by
      unfold nextStart
      split <;> omega
    rw [createChunks]
    simp only [createChunksAux]
    rw [if_pos hpos, hce, List.drop_zero, List.take_of_length_le (Nat.le_of_lt hlen), hstrip,
      createChunksAux_stop cs ov src T (nextStart cs ov) hnext T.length]
    simp [hne]

theorem c6_witness :
    (cleanText "   ".data = [] ∧
      createChunks 7 2 "e.txt".data (cleanText "   ".data) = some []) ∧
    (cleanText "hi".data ≠ [] ∧ (cleanText "hi".data).length < 7 ∧
      createChunks 7 2 "e.txt".data (cleanText "hi".data) =
        some [chunkHeader "e.txt".data ++ cleanText "hi".data]) :=
  ⟨⟨by decide, (c6_chunking_edge_cases "   ".data "e.txt".data 7 2 (by decide)).1 (by decide)⟩,
    ⟨by decide, by decide,
      (c6_chunking_edge_cases "hi".data "e.txt".data 7 2 (by decide)).2 (by decide) (by decide)
        (by decide)⟩⟩

/-! ### Vector store lemmas -/

theorem faissTopK_valid (scores : List ℚ) (k : Nat) :
    ∀ c ∈ faissTopK scores k, (-1 : Int) ≤ c.2 := by
  intro c hc
  rw [faissTopK] at hc
  simp only [List.mem_append] at hc
  rcases hc with h | h
  · have h1 : c ∈ List.insertionSort scoreOrd (scores.enum.map fun p => (p.2, (p.1 : Int))) :=
      List.take_subset _ _ h
    have h2 : c ∈ scores.enum.map fun p => (p.2, (p.1 : Int)) :=
      (List.perm_insertionSort scoreOrd _).subset h1
    rcases List.mem_map.mp h2 with ⟨p, _, hp⟩
    rw [← hp]
    have : (0 : Int) ≤ (p.1 : Int) := Int.natCast_nonneg p.1
    simpa using by omega
  · rw [List.eq_of_mem_replicate h]

theorem pyIndex_mem (docs : List (List Char)) (idx : Int) (hd : docs ≠ [])
    (h1 : (-1 : Int) ≤ idx) (h2 : idx < docs.length) : pyIndex docs idx ∈ docs := by
  have hlenpos : 0 < docs.length := List.length_pos.mpr hd
  rw [pyIndex]
  by_cases hpos : 0 ≤ idx
  · rw [if_pos ⟨hpos, h2⟩]
    have hlt : idx.toNat < docs.length := by omega
    rw [List.getD_eq_getElem docs [] hlt]
    exact List.getElem_mem hlt
  · have hidx : idx = -1 := by omega
    rw [if_neg (fun hand => hpos hand.1),
      if_pos (show -(docs.length : Int) ≤ idx ∧ idx < 0 by omega)]
    have hlt : docs.length - (-idx).toNat < docs.length := by
      rw [hidx]; simp; omega
    rw [List.getD_eq_getElem docs [] hlt]
    exact List.getElem_mem hlt

theorem searchLoop_mem_docs (docs : List (List Char)) (k : Nat) (hd : docs ≠ []) :
    ∀ cands i count, (∀ c ∈ cands, (-1 : Int) ≤ c.2) →
      ∀ e ∈ searchLoop docs k cands i count, e.2 ∈ docs := by
  intro cands
  induction cands with
  | nil => intro i count _ e he; simp [searchLoop] at he
  | cons c rest ih =>
    intro i count hv e he
    obtain ⟨dist, idx⟩ := c
    have hvr : ∀ c ∈ rest, (-1 : Int) ≤ c.2 := fun c hc => hv c (List.mem_cons_of_mem _ hc)
    have hvh : (-1 : Int) ≤ idx := hv (dist, idx) (List.mem_cons_self _ _)
    simp only [searchLoop] at he
    by_cases hskip : (docs.length : Int) ≤ idx
    · rw [if_pos hskip] at he
      exact ih _ _ hvr e he
    · rw [if_neg hskip] at he
      by_cases hmk : padMarker <:+: pyIndex docs idx
      · rw [if_pos hmk] at he
        exact ih _ _ hvr e he
      · rw [if_neg hmk] at he
        by_cases hkc : k ≤ count + 1
        · rw [if_pos hkc] at he
          simp at he
          rw [he]
          exact pyIndex_mem docs idx hd hvh (by omega)
        · rw [if_neg hkc] at he
          simp only [List.mem_cons] at he
          rcases he with he | he
          · rw [he]
            exact pyIndex_mem docs idx hd hvh (by omega)
          · exact ih _ _ hvr e he

theorem searchLoop_shape (docs : List (List Char)) (k : Nat) :
    ∀ cands i count e, e ∈ searchLoop docs k cands i count →
      (∃ j dist, e.1 = mkResult j dist e.2) ∧ ¬ padMarker <:+: e.2 := by
  intro cands
  induction cands with
  | nil => intro i count e he; simp [searchLoop] at he
  | cons c rest ih =>
    intro i count e he
    obtain ⟨dist, idx⟩ := c
    simp only [searchLoop] at he
    by_cases hskip : (docs.length : Int) ≤ idx
    · rw [if_pos hskip] at he
      exact ih _ _ e he
    · rw [if_neg hskip] at he
      by_cases hmk : padMarker <:+: pyIndex docs idx
      · rw [if_pos hmk] at he
        exact ih _ _ e he
      · rw [if_neg hmk] at he
        by_cases hkc : k ≤ count + 1
        · rw [if_pos hkc] at he
          simp at he
          rw [he]
          exact ⟨⟨i, dist, rfl⟩, hmk⟩
        · rw [if_neg hkc] at he
          simp only [List.mem_cons] at he
          rcases he with he | he
          · rw [he]
            exact ⟨⟨i, dist, rfl⟩, hmk⟩
          · exact ih _ _ e he

theorem searchLoop_length (docs : List (List Char)) (k : Nat) :
    ∀ cands i count, count < k →
      (searchLoop docs k cands i count).length ≤ k - count := by
  intro cands
  induction cands with
  | nil => intro i count h; simp [searchLoop]
  | cons c rest ih =>
    intro i count hck
    obtain ⟨dist, idx⟩ := c
    simp only [searchLoop]
    by_cases hskip : (docs.length : Int) ≤ idx
    · rw [if_pos hskip]
      exact ih _ _ hck
    · rw [if_neg hskip]
      by_cases hmk : padMarker <:+: pyIndex docs idx
      · rw [if_pos hmk]
        exact ih _ _ hck
      · rw [if_neg hmk]
        by_cases hkc : k ≤ count + 1
        · rw [if_pos hkc]
          simp only [List.length_singleton]
          omega
        · rw [if_neg hkc]
          have hrec := ih (i + 1) (count + 1) (by omega)
          simp only [List.length_cons]
          omega

theorem faissTopK_zero (scores : List ℚ) : faissTopK scores 0 = [] := by
  simp [faissTopK]

theorem search_length_le (st : VectorStore) (scores : List ℚ) (k : Nat) :
    (VectorStore.search st scores k).length ≤ k := by
  rw [VectorStore.search, List.length_map, searchAux]
  split
  · by_cases hk : 0 < k
    · exact le_trans (searchLoop_length st.documents k _ 0 0 hk) (by omega)
    · have hk0 : k = 0 := by omega
      subst hk0
      rw [faissTopK_zero, searchLoop]
      simp
  · simp

/-! ### Claim C2: the k limit and the padding filter in search -/

/-- C2 counterexample documents: two genuine (user-derived, non-synthetic)
chunks, the first of which happens to contain the padding marker substring. -/
def c2doc1 : List Char := "[Source: a]\nthe padding document for TF-IDF trick".data

/-- Second C2 counterexample document (an ordinary chunk). -/
def c2doc2 : List Char := "[Source: b]\nplain text".data

/-- C2 counterexample: with 2 genuine chunks stored (neither is a synthetic
filler document) and `k = 2`, search returns only 1 result: the candidate pool
fetched from the index is exactly `k` (no over-fetch), and the substring-based
padding filter drops the top candidate with no replacement, so "whenever at
least `k` genuine chunks are stored, search returns exactly `k` genuine
results" fails. -/
theorem c2_counterexample :
    ([c2doc1, c2doc2] : List (List Char)).length = 2 ∧
      paddingDoc1 ∉ ([c2doc1, c2doc2] : List (List Char)) ∧
      paddingDoc2 ∉ ([c2doc1, c2doc2] : List (List Char)) ∧
      (VectorStore.search ⟨true, [c2doc1, c2doc2]⟩ [1, 0] 2).length = 1 :=
  ⟨rfl, by decide, by decide, by decide⟩

/-- **C2 (amended).** `search(q, k)` returns at most `k` results and no
returned result is built from a document containing the padding marker.
However the `k` limit is applied to a candidate pool of exactly `k` rows
fetched from the index (there is no over-fetching and no iteration for
replacements), so when the padding filter removes a candidate — including a
genuine chunk whose text merely contains the marker substring — search returns
fewer than `k` results even though `k` genuine chunks are stored. -/
theorem c2_search_k_limit (st : VectorStore) (scores : List ℚ) (k : Nat) :
    (VectorStore.search st scores k).length ≤ k ∧
      ∀ e ∈ searchAux st scores k, ¬ padMarker <:+: e.2 := by
  refine ⟨search_length_le st scores k, ?_⟩
  intro e he
  rw [searchAux] at he
  split at he
  · exact (searchLoop_shape st.documents k _ 0 0 e he).2
  · simp at he

theorem c2_witness :
    (VectorStore.search ⟨true, [c2doc2]⟩ [1] 3).length ≤ 3 :=
  (c2_search_k_limit ⟨true, [c2doc2]⟩ [1] 3).1

/-! ### Claim C3: no corpus padding in the live index builder -/

/-- C3 counterexample: `create_index` on a single-chunk corpus stores exactly
that one chunk — no synthetic filler documents are added before the TF-IDF
fit (which runs on this same stored list of length 1, not on at least 2
documents). -/
theorem c3_counterexample :
    VectorStore.create_index ["only one chunk".data] =
        .ok ⟨true, ["only one chunk".data]⟩ ∧
      (["only one chunk".data] : List (List Char)).length = 1 ∧
      paddingDoc1 ∉ (["only one chunk".data] : List (List Char)) ∧
      paddingDoc2 ∉ (["only one chunk".data] : List (List Char)) :=
  ⟨rfl, rfl, by decide, by decide⟩

/-- **C3 (amended).** The live `create_index` does not pad the corpus: any
nonempty document list is stored exactly as given (the TF-IDF fit then runs on
that unpadded list; for a single-chunk corpus the fit fails internally and
embedding degrades to the hash fallback), and every search result is built
from one of the stored documents — so no synthetic filler can ever appear in
results, the padding filter in `search` being vestigial. -/
theorem c3_no_padding (docs : List (List Char)) (scores : List ℚ) (k : Nat)
    (hd : docs ≠ []) :
    VectorStore.create_index docs = .ok ⟨true, docs⟩ ∧
      ∀ e ∈ searchAux ⟨true, docs⟩ scores k, e.2 ∈ docs := by
  constructor
  · rw [VectorStore.create_index, if_neg (by simpa using hd)]
  · intro e he
    rw [searchAux] at he
    simp only [if_true] at he
    exact searchLoop_mem_docs docs k hd _ 0 0 (faissTopK_valid scores k) e he

theorem c3_witness :
    VectorStore.create_index ["alpha".data] = .ok ⟨true, ["alpha".data]⟩ :=
  (c3_no_padding ["alpha".data] [1] 1 (by decide)).1

/-! ### Claim C7: preview length -/

theorem truncPrev_length (p : List Char) : (truncPrev p).length ≤ 303 := by
  have h3 : ("...".data : List Char).length = 3 := by decide
  rw [truncPrev]
  split
  · simp only [List.length_append, List.length_take, h3]
    omega
  next h => omega

set_option maxRecDepth 40000 in
/-- C7 counterexample: a stored chunk whose body has 301 characters yields a
preview of length 303 (300 characters plus the 3-character ellipsis), which
exceeds the claimed 300-character bound. -/
theorem c7_counterexample :
    (((VectorStore.search ⟨true, ["[Source: a]\n".data ++ List.replicate 301 'x']⟩
        [1] 1).headD default).preview).length = 303 := by
  decide

/-- **C7 (amended).** Every preview returned by `search` has at most 303
characters: bodies of at most 300 characters are returned whole, longer
bodies are truncated to their first 300 characters plus a 3-character
ellipsis (total 303, not 300). -/
theorem c7_preview_length (st : VectorStore) (scores : List ℚ) (k : Nat) :
    ∀ r ∈ VectorStore.search st scores k, r.preview.length ≤ 303 := by
  intro r hr
  rw [VectorStore.search] at hr
  rcases List.mem_map.mp hr with ⟨e, he, hre⟩
  rw [searchAux] at he
  split at he
  · rcases (searchLoop_shape st.documents k _ 0 0 e he).1 with ⟨j, dist, hj⟩
    rw [← hre, hj]
    exact truncPrev_length _
  · simp at he

theorem c7_witness :
    ((VectorStore.search ⟨true, ["[Source: b]\nhi".data]⟩ [1] 1).headD default).preview.length ≤
      303 :=
  c7_preview_length ⟨true, ["[Source: b]\nhi".data]⟩ [1] 1
    ((VectorStore.search ⟨true, ["[Source: b]\nhi".data]⟩ [1] 1).headD default) (by decide)

/-! ### Claim C8: unbuilt index and empty results -/

/-- **C8 (confirmed).** `search` on a store whose index was never built
returns the empty list (not an error), and the answer assembly on an empty
result list returns the canned no-information response with confidence 0 and
zero sources. -/
theorem c8_unbuilt_index_empty_answer (docs : List (List Char)) (scores : List ℚ) (k : Nat) :
    VectorStore.search ⟨false, docs⟩ scores k = [] ∧
      getResponseWithSources [] = ⟨noInfoText, [], 0, 0⟩ :=
  ⟨rfl, rfl⟩

/-! ### Claim C10: the FAISS sentinel index bug -/

/-- The single stored chunk of the C10 failing input. -/
def c10doc : List Char := "[Source: a.txt]\nhello".data

/-- C10 evaluation at the failing input: one stored chunk, `k = 2`.  FAISS
pads the candidate list with the sentinel row `-1`; the loop's only guard is
`idx >= len(documents)`, which `-1` passes, and Python negative indexing turns
`documents[-1]` into the last stored chunk — so search returns 2 results for a
1-chunk store, the second derived from the sentinel index (same source and
text as the first, with the sentinel distance as its score). -/
theorem c10_sentinel_eval :
    faissTopK [1] 2 = [(1, 0), (sentinelScore, -1)] ∧
      (VectorStore.search ⟨true, [c10doc]⟩ [1] 2).length = 2 ∧
      (VectorStore.search ⟨true, [c10doc]⟩ [1] 2).map SearchResult.source_name =
        [" a.txt".data, " a.txt".data] ∧
      (VectorStore.search ⟨true, [c10doc]⟩ [1] 2).map SearchResult.similarity_score =
        [1, sentinelScore] :=
  ⟨by decide, by decide, by decide, by decide⟩

/-! ### Deduplication lemmas (source_map as an ordered dict) -/

instance : DecidableRel scoreGE := fun a b =>
  inferInstanceAs (Decidable (b.similarity_score ≤ a.similarity_score))

theorem upsert_ne_nil (m : List SearchResult) (r : SearchResult) : upsert m r ≠ [] := by
  cases m with
  | nil => simp [upsert]
  | cons x xs =>
    rw [upsert]
    split
    · simp
    · simp

theorem foldl_upsert_ne_nil (rs : List SearchResult) :
    ∀ acc, acc ≠ [] → rs.foldl upsert acc ≠ [] := by
  induction rs with
  | nil => intro acc h; simpa using h
  | cons r rs ih => intro acc _; exact ih (upsert acc r) (upsert_ne_nil acc r)

theorem sourceMap_ne_nil (r : SearchResult) (rs : List SearchResult) :
    sourceMap (r :: rs) ≠ [] := by
  rw [sourceMap, List.foldl_cons]
  exact foldl_upsert_ne_nil rs (upsert [] r) (upsert_ne_nil [] r)

theorem upsert_eq_self (acc : List SearchResult) (r : SearchResult)
    (hle : ∀ a ∈ acc, r.source_name = a.source_name →
      r.similarity_score ≤ a.similarity_score)
    (hm : r.source_name ∈ acc.map SearchResult.source_name) : upsert acc r = acc := by
  induction acc with
  | nil => simp at hm
  | cons x xs ih =>
    rw [upsert]
    by_cases hx : x.source_name = r.source_name
    · rw [if_pos hx]
      have hr := hle x (List.mem_cons_self _ _) hx.symm
      rw [if_neg (not_lt.mpr hr)]
    · rw [if_neg hx]
      congr 1
      apply ih
      · intro a ha h
        exact hle a (List.mem_cons_of_mem _ ha) h
      · simp only [List.map_cons, List.mem_cons] at hm
        rcases hm with hm | hm
        · exact absurd hm.symm hx
        · exact hm

theorem upsert_append (acc : List SearchResult) (r : SearchResult)
    (hm : r.source_name ∉ acc.map SearchResult.source_name) :
    upsert acc r = acc ++ [r] := by
  induction acc with
  | nil => simp [upsert]
  | cons x xs ih =>
    rw [upsert]
    by_cases hx : x.source_name = r.source_name
    · exact absurd (by simp [hx.symm]) hm
    · rw [if_neg hx, List.cons_append]
      congr 1
      apply ih
      intro hmem
      exact hm (by simp [hmem])

theorem firstOccAux_congr (rs : List SearchResult) :
    ∀ seen1 seen2 : List (List Char), (∀ s, s ∈ seen1 ↔ s ∈ seen2) →
      firstOccAux seen1 rs = firstOccAux seen2 rs := by
  induction rs with
  | nil => intro _ _ _; rfl
  | cons r rs ih =>
    intro seen1 seen2 h
    rw [firstOccAux, firstOccAux]
    by_cases hm : r.source_name ∈ seen1
    · rw [if_pos hm, if_pos ((h _).mp hm)]
      exact ih _ _ h
    · rw [if_neg hm, if_neg (fun hc => hm ((h _).mpr hc))]
      congr 1
      apply ih
      intro s
      simp only [List.mem_cons]
      rw [h s]

theorem foldl_upsert_firstOcc (rs : List SearchResult) :
    ∀ acc, rs.Pairwise scoreGE →
      (∀ a ∈ acc, ∀ r ∈ rs, r.source_name = a.source_name →
        r.similarity_score ≤ a.similarity_score) →
      rs.foldl upsert acc = acc ++ firstOccAux (acc.map SearchResult.source_name) rs := by
  induction rs with
  | nil => intro acc _ _; simp [firstOccAux]
  | cons r rs ih =>
    intro acc hp hacc
    have hpr : rs.Pairwise scoreGE := (List.pairwise_cons.mp hp).2
    have hhead : ∀ y ∈ rs, scoreGE r y := (List.pairwise_cons.mp hp).1
    rw [List.foldl_cons, firstOccAux]
    by_cases hm : r.source_name ∈ acc.map SearchResult.source_name
    · rw [if_pos hm,
        upsert_eq_self acc r (fun a ha h => hacc a ha r (List.mem_cons_self _ _) h) hm]
      exact ih acc hpr (fun a ha r' hr' h => hacc a ha r' (List.mem_cons_of_mem _ hr') h)
    · rw [if_neg hm, upsert_append acc r hm]
      have hacc' : ∀ a ∈ acc ++ [r], ∀ r' ∈ rs, r'.source_name = a.source_name →
          r'.similarity_score ≤ a.similarity_score := by
        intro a ha r' hr' h
        rcases List.mem_append.mp ha with ha | ha
        · exact hacc a ha r' (List.mem_cons_of_mem _ hr') h
        · have : a = r := by simpa using ha
          rw [this]
          exact hhead r' hr'
      rw [ih (acc ++ [r]) hpr hacc', List.append_assoc]
      congr 1
      rw [List.singleton_append]
      congr 1
      apply firstOccAux_congr
      intro s
      simp only [List.map_append, List.map_cons, List.map_nil, List.mem_append,
        List.mem_cons, List.mem_singleton, List.not_mem_nil, or_false]
      tauto

theorem firstOccAux_spec (rs : List SearchResult) :
    ∀ seen, rs.Pairwise scoreGE →
      ∀ r ∈ firstOccAux seen rs,
        r ∈ rs ∧ r.source_name ∉ seen ∧
          ∀ r' ∈ rs, r'.source_name = r.source_name →
            r'.similarity_score ≤ r.similarity_score := by
  induction rs with
  | nil => intro seen _ r hr; simp [firstOccAux] at hr
  | cons x xs ih =>
    intro seen hp r hr
    have hpr : xs.Pairwise scoreGE := (List.pairwise_cons.mp hp).2
    have hhead : ∀ y ∈ xs, scoreGE x y := (List.pairwise_cons.mp hp).1
    rw [firstOccAux] at hr
    by_cases hm : x.source_name ∈ seen
    · rw [if_pos hm] at hr
      obtain ⟨h1, h2, h3⟩ := ih seen hpr r hr
      refine ⟨List.mem_cons_of_mem _ h1, h2, ?_⟩
      intro r' hr' hsrc
      rcases List.mem_cons.mp hr' with h | h
      · exfalso
        rw [h] at hsrc
        exact h2 (hsrc ▸ hm)
      · exact h3 r' h hsrc
    · rw [if_neg hm] at hr
      rcases List.mem_cons.mp hr with h | h
      · subst h
        refine ⟨List.mem_cons_self _ _, hm, ?_⟩
        intro r' hr' hsrc
        rcases List.mem_cons.mp hr' with h | h
        · rw [h]
        · exact hhead r' h
      · obtain ⟨h1, h2, h3⟩ := ih _ hpr r h
        have hne : r.source_name ≠ x.source_name := by
          intro hc
          exact h2 (by simp [hc])
        refine ⟨List.mem_cons_of_mem _ h1, fun hc => h2 (List.mem_cons_of_mem _ hc), ?_⟩
        intro r' hr' hsrc
        rcases List.mem_cons.mp hr' with h' | h'
        · exfalso
          rw [h'] at hsrc
          exact hne hsrc.symm
        · exact h3 r' h' hsrc

/-! ### Search output is sorted by descending score

These lemmas justify the sortedness hypothesis of the C4 theorem: the result
lists `VectorStore.search` hands to `get_response_with_sources` are always in
descending score order (FAISS returns candidates best-first and the collection
loop preserves their order). -/

instance : IsTotal (ℚ × Int) scoreOrd := ⟨fun a b => le_total b.1 a.1⟩

instance : IsTrans (ℚ × Int) scoreOrd := ⟨fun a b c h1 h2 => le_trans h2 h1⟩

theorem faissTopK_pairwise (scores : List ℚ) (k : Nat)
    (hs : ∀ s ∈ scores, sentinelScore ≤ s) :
    (faissTopK scores k).Pairwise scoreOrd := by
  rw [faissTopK]
  apply List.pairwise_append.mpr
  refine ⟨?_, ?_, ?_⟩
  · exact (List.sorted_insertionSort scoreOrd _).sublist (List.take_sublist k _)
  · exact (List.pairwise_replicate).mpr (Or.inr (le_refl _))
  · intro x hx y hy
    have hy1 : y = (sentinelScore, -1) := List.eq_of_mem_replicate hy
    have hx1 : x ∈ List.insertionSort scoreOrd (scores.enum.map fun p => (p.2, (p.1 : Int))) :=
      List.take_subset _ _ hx
    have hx2 : x ∈ scores.enum.map fun p => (p.2, (p.1 : Int)) :=
      (List.perm_insertionSort scoreOrd _).subset hx1
    rcases List.mem_map.mp hx2 with ⟨p, hp, hpx⟩
    have hmem : x.1 ∈ scores := by
      rw [← hpx]
      rw [← List.enum_map_snd scores]
      exact List.mem_map_of_mem Prod.snd hp
    rw [hy1]
    exact hs x.1 hmem

theorem searchLoop_scores_sublist (docs : List (List Char)) (k : Nat) :
    ∀ cands i count,
      List.Sublist ((searchLoop docs k cands i count).map (fun e => e.1.similarity_score))
        (cands.map Prod.fst) := by
  intro cands
  induction cands with
  | nil => intro i count; simp [searchLoop]
  | cons c rest ih =>
    intro i count
    obtain ⟨dist, idx⟩ := c
    simp only [searchLoop, List.map_cons]
    by_cases hskip : (docs.length : Int) ≤ idx
    · rw [if_pos hskip]
      exact (ih _ _).trans (List.sublist_cons_self _ _)
    · rw [if_neg hskip]
      by_cases hmk : padMarker <:+: pyIndex docs idx
      · rw [if_pos hmk]
        exact (ih _ _).trans (List.sublist_cons_self _ _)
      · rw [if_neg hmk]
        by_cases hkc : k ≤ count + 1
        · rw [if_pos hkc]
          simp only [List.map_cons, List.map_nil]
          exact (List.nil_sublist _).cons₂ _
        · rw [if_neg hkc]
          simp only [List.map_cons]
          exact (ih _ _).cons₂ _

/-- Search results are always in descending score order (scores of stored rows
being genuine cosine values, in particular at least the sentinel distance). -/
theorem search_results_sorted (st : VectorStore) (scores : List ℚ) (k : Nat)
    (hs : ∀ s ∈ scores, sentinelScore ≤ s) :
    (VectorStore.search st scores k).Pairwise scoreGE := by
  rw [VectorStore.search, searchAux]
  split
  · apply (List.pairwise_map).mpr
    have hcand := faissTopK_pairwise scores k hs
    have hfst : ((faissTopK scores k).map Prod.fst).Pairwise (fun a b : ℚ => b ≤ a) :=
      hcand.map _ (fun a b h => h)
    have hsub := searchLoop_scores_sublist st.documents k (faissTopK scores k) 0 0
    have h2 := hfst.sublist hsub
    have h3 : (searchLoop st.documents k (faissTopK scores k) 0 0).Pairwise
        (fun a b => b.1.similarity_score ≤ a.1.similarity_score) :=
      (List.pairwise_map).mp h2
    exact h3
  · simp

/-! ### Claim C4: deduplication by source -/

/-- The result list of the specification example for C4 (scores 0.9, 0.7, 0.8). -/
def c4example : List SearchResult :=
  [⟨1, "A".data, mkRat 9 10, []⟩, ⟨2, "A".data, mkRat 7 10, []⟩, ⟨3, "B".data, mkRat 8 10, []⟩]

/-- **C4 (confirmed).** For a search result list (always sorted by descending
similarity score, as `search` returns candidates best-first), the dedup stage
of `get_response_with_sources` keeps exactly the first occurrence of each
source name, in original rank order; each kept result has the highest
similarity score among its source's results (ties keep the first-seen one);
the response exposes the first 3 of these; and on the specification example
(A 0.9, A 0.7, B 0.8) exactly A 0.9 and B 0.8 are kept, in that order. -/
theorem c4_dedup_by_source (results : List SearchResult) (hne : results ≠ [])
    (hsorted : results.Pairwise scoreGE) :
    sourceMap results = firstOccAux [] results ∧
      (∀ r ∈ sourceMap results, r ∈ results ∧
        ∀ r' ∈ results, r'.source_name = r.source_name →
          r'.similarity_score ≤ r.similarity_score) ∧
      (getResponseWithSources results).sources = (sourceMap results).take 3 ∧
      (sourceMap c4example).map (fun r => (r.source_name, r.similarity_score)) =
        [("A".data, mkRat 9 10), ("B".data, mkRat 8 10)] := by
  have hmain : sourceMap results = firstOccAux [] results := by
    rw [sourceMap, foldl_upsert_firstOcc results [] hsorted (by simp)]
    simp
  refine ⟨hmain, ?_, ?_, by decide⟩
  · intro r hr
    rw [hmain] at hr
    obtain ⟨h1, _, h3⟩ := firstOccAux_spec results [] hsorted r hr
    exact ⟨h1, h3⟩
  · cases results with
    | nil => exact absurd rfl hne
    | cons a as =>
      simp only [getResponseWithSources]
      rcases hsm : sourceMap (a :: as) with _ | ⟨top, rest⟩
      · exact absurd hsm (sourceMap_ne_nil a as)
      · simp

theorem c4_witness :
    sourceMap [⟨1, "A".data, 1, []⟩, ⟨2, "B".data, 0, []⟩] =
      firstOccAux [] [⟨1, "A".data, 1, []⟩, ⟨2, "B".data, 0, []⟩] :=
  (c4_dedup_by_source [⟨1, "A".data, 1, []⟩, ⟨2, "B".data, 0, []⟩]
    (by decide) (by decide)).1

/-! ### Claim C5: the clamped confidence -/

/-- **C5 (confirmed).** For a nonempty result list, the returned confidence is
exactly `min 0.95 (max 0.5 (top_score + 0.3))` where `top_score` is the
similarity score of the first deduplicated source; it therefore always lies in
`[0.5, 0.95]`, and the boundary instances `top_score = -1 ↦ 0.5` and
`top_score = 1 ↦ 0.95` hold. -/
theorem c5_confidence_clamp (results : List SearchResult) (hne : results ≠ []) :
    (getResponseWithSources results).confidence =
        min (19 / 20 : ℚ) (max (1 / 2 : ℚ) (topScore results + 3 / 10)) ∧
      (1 / 2 : ℚ) ≤ (getResponseWithSources results).confidence ∧
      (getResponseWithSources results).confidence ≤ (19 / 20 : ℚ) ∧
      (getResponseWithSources [⟨1, "A".data, -1, []⟩]).confidence = 1 / 2 ∧
      (getResponseWithSources [⟨1, "A".data, 1, []⟩]).confidence = 19 / 20 := by
  have hb1 : (getResponseWithSources [⟨1, "A".data, -1, []⟩]).confidence = 1 / 2 := by
    norm_num [getResponseWithSources, sourceMap, upsert]
  have hb2 : (getResponseWithSources [⟨1, "A".data, 1, []⟩]).confidence = 19 / 20 := by
    norm_num [getResponseWithSources, sourceMap, upsert]
  have hform : (getResponseWithSources results).confidence =
      min (19 / 20 : ℚ) (max (1 / 2 : ℚ) (topScore results + 3 / 10)) := by
    cases results with
    | nil => exact absurd rfl hne
    | cons a as =>
      simp only [getResponseWithSources]
      rcases hsm : sourceMap (a :: as) with _ | ⟨top, rest⟩
      · exact absurd hsm (sourceMap_ne_nil a as)
      · rw [topScore, hsm]
        simp
  refine ⟨hform, ?_, ?_, hb1, hb2⟩
  · rw [hform]
    exact le_min (by norm_num) (le_max_left _ _)
  · rw [hform]
    exact min_le_left _ _

theorem c5_witness :
    (getResponseWithSources [⟨1, "A".data, 0, []⟩]).confidence =
      min (19 / 20 : ℚ) (max (1 / 2 : ℚ) (topScore [⟨1, "A".data, 0, []⟩] + 3 / 10)) :=
  (c5_confidence_clamp [⟨1, "A".data, 0, []⟩] (by decide)).1

/-! ### Claim C9: atomic corpus generation swap -/

/-- **C9 (confirmed).** The ingest endpoint never partially updates the
active generation: when any step fails (a requested file is missing, no chunks
were produced, or index creation fails) the previous server state is returned
unchanged; only on full success are the new pipeline (with its freshly built
index over all extracted chunks) and the processed chunk list installed
together. -/
theorem c9_atomic_generation (st : ServerState) (files : List (Option (List (List Char)))) :
    ((processDocuments st files).2 = false → (processDocuments st files).1 = st) ∧
      ((processDocuments st files).2 = true →
        (processDocuments st files).1 =
          ⟨some ⟨true, chunksOf files⟩, chunksOf files⟩) := by
  simp only [processDocuments]
  by_cases h1 : files.any (fun f => f.isNone)
  · rw [if_pos h1]
    exact ⟨fun _ => rfl, fun h => by simp at h⟩
  · rw [if_neg h1]
    by_cases h2 : (chunksOf files).isEmpty
    · rw [if_pos h2]
      exact ⟨fun _ => rfl, fun h => by simp at h⟩
    · rw [if_neg h2]
      have hci : VectorStore.create_index (chunksOf files) =
          .ok ⟨true, chunksOf files⟩ := by
        rw [VectorStore.create_index, if_neg (by simpa using h2)]
      rw [hci]
      exact ⟨fun h => by simp at h, fun _ => rfl⟩

theorem c9_witness :
    (processDocuments ⟨none, []⟩ [none]).1 = ⟨none, []⟩ ∧
      (processDocuments ⟨none, []⟩ [some [['a']]]).1 =
        ⟨some ⟨true, [['a']]⟩, [['a']]⟩ :=
  ⟨(c9_atomic_generation ⟨none, []⟩ [none]).1 (by rfl),
    (c9_atomic_generation ⟨none, []⟩ [some [['a']]]).2 (by rfl)⟩

end RagWeb
